import Mathlib

/-!
Verification of the LAN-CHAT peer discovery and secure transport core
(`main.go`).  The Go source is shallowly embedded: byte slices become
`List Nat` (each element a byte value, reduced mod 256 exactly where the
Go `byte` type truncates), strings become `List Char`, fallible functions
return `Except`, and the network/random inputs of each function become
explicit parameters.  The cryptographic primitives used by the source
(SHA-256, AES-256, GCM, base64) are implemented concretely, mirroring the
Go standard library semantics the source relies on.
-/

/-- Strings of the Go program are modelled as lists of characters. -/
abbrev Str := List Char

/-- Conversion of a Go string to its bytes (`[]byte(s)`), modelled as the
code points of the characters. -/
def strBytes (s : Str) : List Nat := s.map Char.toNat

/-- Whitespace predicate of `strings.TrimSpace` (ASCII part of
`unicode.IsSpace`). -/
def isSpaceChar (c : Char) : Bool :=
  c == ' ' || c == '\t' || c == '\n' || c == '\x0d' || c == '\x0b' || c == '\x0c'

/-- Leading-whitespace removal. -/
def trimLeft (s : Str) : Str := s.dropWhile isSpaceChar

/-- Trailing-whitespace removal. -/
def trimRight (s : Str) : Str := (s.reverse.dropWhile isSpaceChar).reverse

/-- Model of Go `strings.TrimSpace`. -/
def trimSpace (s : Str) : Str := trimRight (trimLeft s)

/-- Split at the first colon, as `strings.SplitN(s, ":", 2)` does: the
result is `none` when `s` has no colon (a one-element split in Go). -/
def splitFirstColon : Str → Option (Str × Str)
  | [] => none
  | c :: t =>
    if c == ':' then some ([], t)
    else (splitFirstColon t).map (fun p => (c :: p.1, p.2))

/-- Bytewise xor as performed on Go `byte` values. -/
def maskXor (a b : Nat) : Nat := (a ^^^ b) % 256

/-- Association-list lookup used to model the `sync.Map` of the
discovery listener. -/
def lookupA : List (Str × Str) → Str → Option Str
  | [], _ => none
  | (k, v) :: t, a => if k == a then some v else lookupA t a

/-! SHA-256, as used by `deriveKey` and `passwordFingerprint` through
`crypto/sha256.Sum256`.  Words are `Nat` values kept below `2 ^ 32` by
explicit reduction. -/

/-- Right rotation of a 32-bit word. -/
def rotr32 (n x : Nat) : Nat := ((x >>> n) ||| (x <<< (32 - n))) % 4294967296

/-- Integer cube root by bisection, maintaining lo cubed at most n and n
below hi cubed. -/
def icbrtAux (n : Nat) : Nat → Nat → Nat → Nat
  | 0, lo, _ => lo
  | fuel + 1, lo, hi =>
    if hi ≤ lo + 1 then lo
    else
      let mid := (lo + hi) / 2
      if mid * mid * mid ≤ n then icbrtAux n fuel mid hi
      else icbrtAux n fuel lo mid

/-- Integer cube root. -/
def icbrt (n : Nat) : Nat := icbrtAux n 128 0 (n + 1)

/-- The first sixty-four primes. -/
def primes64 : List Nat :=
  [2, 3, 5, 7, 11, 13, 17, 19, 23, 29, 31, 37, 41, 43, 47, 53,
   59, 61, 67, 71, 73, 79, 83, 89, 97, 101, 103, 107, 109, 113, 127, 131,
   137, 139, 149, 151, 157, 163, 167, 173, 179, 181, 191, 193, 197, 199, 211, 223,
   227, 229, 233, 239, 241, 251, 257, 263, 269, 271, 277, 281, 283, 293, 307, 311]

/-- Round constants of SHA-256: the fractional parts of the cube roots of
the first sixty-four primes, scaled to 32 bits. -/
def shaK : List Nat := primes64.map fun p => icbrt (p * 79228162514264337593543950336) % 4294967296

/-- Hash state: the eight working registers. -/
structure Sha8 where
  a : Nat
  b : Nat
  c : Nat
  d : Nat
  e : Nat
  f : Nat
  g : Nat
  h : Nat
deriving Repr, DecidableEq

/-- Word of the initial state: fractional part of the square root of a
prime, scaled to 32 bits. -/
def shaIv (p : Nat) : Nat := Nat.sqrt (p * 18446744073709551616) % 4294967296

/-- Initial hash state of SHA-256, from the first eight primes. -/
def shaInit : Sha8 :=
  ⟨shaIv 2, shaIv 3, shaIv 5, shaIv 7, shaIv 11, shaIv 13, shaIv 17, shaIv 19⟩

/-- Big-endian 32-bit word from four bytes. -/
def wordOfBytes (a b c d : Nat) : Nat :=
  (a % 256) * 16777216 + (b % 256) * 65536 + (c % 256) * 256 + d % 256

/-- Big-endian bytes of a 32-bit word. -/
def be32 (w : Nat) : List Nat :=
  [w / 16777216 % 256, w / 65536 % 256, w / 256 % 256, w % 256]

/-- Big-endian bytes of a 64-bit word. -/
def be64 (w : Nat) : List Nat :=
  [w >>> 56 % 256, w >>> 48 % 256, w >>> 40 % 256, w >>> 32 % 256,
   w >>> 24 % 256, w >>> 16 % 256, w >>> 8 % 256, w % 256]

/-- Message schedule: expand a 64-byte block into 64 words. -/
def shaSchedule (block : List Nat) : List Nat :=
  let w16 := (List.range 16).map fun i =>
    wordOfBytes (block.getD (4 * i) 0) (block.getD (4 * i + 1) 0)
      (block.getD (4 * i + 2) 0) (block.getD (4 * i + 3) 0)
  (List.range 48).foldl (fun w _ =>
    let n := w.length
    let s0 := rotr32 7 (w.getD (n - 15) 0) ^^^ rotr32 18 (w.getD (n - 15) 0) ^^^
      (w.getD (n - 15) 0) >>> 3
    let s1 := rotr32 17 (w.getD (n - 2) 0) ^^^ rotr32 19 (w.getD (n - 2) 0) ^^^
      (w.getD (n - 2) 0) >>> 10
    w ++ [(w.getD (n - 16) 0 + s0 + w.getD (n - 7) 0 + s1) % 4294967296]) w16

/-- Compression of one 64-byte block into the hash state. -/
def shaCompress (s : Sha8) (block : List Nat) : Sha8 :=
  let w := shaSchedule block
  let r := (List.range 64).foldl (fun (r : Sha8) i =>
    let s1 := rotr32 6 r.e ^^^ rotr32 11 r.e ^^^ rotr32 25 r.e
    let ch := (r.e &&& r.f) ^^^ ((r.e ^^^ 0xffffffff) &&& r.g)
    let t1 := (r.h + s1 + ch + shaK.getD i 0 + w.getD i 0) % 4294967296
    let s0 := rotr32 2 r.a ^^^ rotr32 13 r.a ^^^ rotr32 22 r.a
    let mj := (r.a &&& r.b) ^^^ (r.a &&& r.c) ^^^ (r.b &&& r.c)
    let t2 := (s0 + mj) % 4294967296
    ⟨(t1 + t2) % 4294967296, r.a, r.b, r.c, (r.d + t1) % 4294967296, r.e, r.f, r.g⟩) s
  ⟨(s.a + r.a) % 4294967296, (s.b + r.b) % 4294967296, (s.c + r.c) % 4294967296,
   (s.d + r.d) % 4294967296, (s.e + r.e) % 4294967296, (s.f + r.f) % 4294967296,
   (s.g + r.g) % 4294967296, (s.h + r.h) % 4294967296⟩

/-- Fixed-size chunking with an explicit fuel argument (the list length
bounds the number of chunks whenever the chunk size is positive). -/
def chunksAux (n : Nat) : Nat → List Nat → List (List Nat)
  | 0, _ => []
  | _, [] => []
  | fuel + 1, a :: rest => ((a :: rest).take n) :: chunksAux n fuel ((a :: rest).drop n)

/-- Split a byte list into chunks of `n` bytes. -/
def chunksOf (n : Nat) (l : List Nat) : List (List Nat) := chunksAux n l.length l

/-- SHA-256 of a byte message. -/
def sha256 (msg : List Nat) : List Nat :=
  let ml := msg.length
  let padded := msg.map (· % 256) ++ [0x80] ++ List.replicate ((119 - ml % 64) % 64) 0 ++
    be64 ((ml * 8) % 18446744073709551616)
  let s := (chunksOf 64 padded).foldl shaCompress shaInit
  be32 s.a ++ be32 s.b ++ be32 s.c ++ be32 s.d ++ be32 s.e ++ be32 s.f ++ be32 s.g ++ be32 s.h

/-- Model of `deriveKey`: the SHA-256 digest of the password bytes is the
32-byte AEAD key. -/
def deriveKey (password : Str) : List Nat := sha256 (strBytes password)

/-- Lower-case hexadecimal digit. -/
def hexDigit (n : Nat) : Char := "0123456789abcdef".toList.getD n '0'

/-- Model of `hex.EncodeToString` on a byte list. -/
def hexEncode (l : List Nat) : Str := l.flatMap fun b => [hexDigit (b / 16 % 16), hexDigit (b % 16)]

/-- Model of `passwordFingerprint`: hex of the SHA-256 digest of the
namespaced password. -/
def passwordFingerprint (password : Str) : Str :=
  hexEncode (sha256 (strBytes ("LAN-CHAT-VERIFY:".toList ++ password)))

/-! AES-256 block encryption, as constructed by `aes.NewCipher` on the
32-byte derived key.  The S-box is computed from its defining field
inverse and affine transform; bytes are reduced mod 256 exactly where
the 8-bit arithmetic truncates. -/

/-- Multiplication by x in GF(2^8) with the AES reduction polynomial. -/
def xtime (b : Nat) : Nat := ((b <<< 1) ^^^ (if 128 ≤ b % 256 then 0x1b else 0)) % 256

/-- GF(2^8) product, by shift-and-add over the eight bits of the second
factor. -/
def gfMulAux : Nat → Nat → Nat → Nat
  | 0, _, _ => 0
  | fuel + 1, a, b => (if b % 2 = 1 then a else 0) ^^^ gfMulAux fuel (xtime a) (b / 2)

/-- GF(2^8) multiplication of two bytes. -/
def gfMul (a b : Nat) : Nat := gfMulAux 8 (a % 256) (b % 256)

/-- Iterated doubling in GF(2^8). -/
def gfPow2 (k : Nat) : Nat := (List.range k).foldl (fun b _ => xtime b) 1

/-- GF(2^8) exponentiation. -/
def gfPow (a k : Nat) : Nat := (List.range k).foldl (fun b _ => gfMul b a) 1

/-- Multiplicative inverse in GF(2^8) (zero maps to zero). -/
def gfInv (b : Nat) : Nat := gfPow b 254

/-- Left rotation of a byte. -/
def rotl8 (b n : Nat) : Nat := (((b % 256) <<< n) ||| ((b % 256) >>> (8 - n))) % 256

/-- AES S-box, from the field inverse followed by the affine transform. -/
def sboxByte (b : Nat) : Nat :=
  let i := gfInv b
  (i ^^^ rotl8 i 1 ^^^ rotl8 i 2 ^^^ rotl8 i 3 ^^^ rotl8 i 4 ^^^ 0x63) % 256

/-- Substitute each byte of a 32-bit word. -/
def subWord (w : Nat) : Nat :=
  (sboxByte (w >>> 24 % 256) <<< 24) ||| (sboxByte (w >>> 16 % 256) <<< 16) |||
    (sboxByte (w >>> 8 % 256) <<< 8) ||| sboxByte (w % 256)

/-- Left rotation of a 32-bit word by one byte. -/
def rotWord (w : Nat) : Nat := ((w <<< 8) ||| (w >>> 24)) % 4294967296

/-- Round-constant byte of the key schedule. -/
def rconByte (n : Nat) : Nat := gfPow2 (n - 1)

/-- AES-256 key schedule: 60 words from the 32-byte key. -/
def expandKey (key : List Nat) : List Nat :=
  let w0 := (List.range 8).map fun i =>
    wordOfBytes (key.getD (4 * i) 0) (key.getD (4 * i + 1) 0)
      (key.getD (4 * i + 2) 0) (key.getD (4 * i + 3) 0)
  (List.range 52).foldl (fun w _ =>
    let i := w.length
    let t := w.getD (i - 1) 0
    let t :=
      if i % 8 = 0 then subWord (rotWord t) ^^^ (rconByte (i / 8) <<< 24)
      else if i % 8 = 4 then subWord t
      else t
    w ++ [(w.getD (i - 8) 0 ^^^ t) % 4294967296]) w0

/-- Byte accessor for the flat 16-byte state (input order, column-major). -/
def stByte (s : List Nat) (i : Nat) : Nat := s.getD i 0

/-- SubBytes on the 16-byte state. -/
def subBytes (s : List Nat) : List Nat :=
  [sboxByte (stByte s 0), sboxByte (stByte s 1), sboxByte (stByte s 2), sboxByte (stByte s 3),
   sboxByte (stByte s 4), sboxByte (stByte s 5), sboxByte (stByte s 6), sboxByte (stByte s 7),
   sboxByte (stByte s 8), sboxByte (stByte s 9), sboxByte (stByte s 10), sboxByte (stByte s 11),
   sboxByte (stByte s 12), sboxByte (stByte s 13), sboxByte (stByte s 14), sboxByte (stByte s 15)]

/-- ShiftRows on the 16-byte state. -/
def shiftRows (s : List Nat) : List Nat :=
  [stByte s 0, stByte s 5, stByte s 10, stByte s 15,
   stByte s 4, stByte s 9, stByte s 14, stByte s 3,
   stByte s 8, stByte s 13, stByte s 2, stByte s 7,
   stByte s 12, stByte s 1, stByte s 6, stByte s 11]

/-- MixColumns on one column. -/
def mixCol (a0 a1 a2 a3 : Nat) : List Nat :=
  [(xtime a0 ^^^ (xtime a1 ^^^ a1) ^^^ a2 ^^^ a3) % 256,
   (a0 ^^^ xtime a1 ^^^ (xtime a2 ^^^ a2) ^^^ a3) % 256,
   (a0 ^^^ a1 ^^^ xtime a2 ^^^ (xtime a3 ^^^ a3)) % 256,
   ((xtime a0 ^^^ a0) ^^^ a1 ^^^ a2 ^^^ xtime a3) % 256]

/-- MixColumns on the 16-byte state. -/
def mixColumns (s : List Nat) : List Nat :=
  mixCol (stByte s 0) (stByte s 1) (stByte s 2) (stByte s 3) ++
    mixCol (stByte s 4) (stByte s 5) (stByte s 6) (stByte s 7) ++
    mixCol (stByte s 8) (stByte s 9) (stByte s 10) (stByte s 11) ++
    mixCol (stByte s 12) (stByte s 13) (stByte s 14) (stByte s 15)

/-- Round key `r` of the schedule as 16 bytes. -/
def roundKey (w : List Nat) (r : Nat) : List Nat :=
  (List.range 4).flatMap fun c => be32 (w.getD (4 * r + c) 0)

/-- AddRoundKey on the 16-byte state. -/
def addRoundKey (rk s : List Nat) : List Nat :=
  [maskXor (stByte s 0) (stByte rk 0), maskXor (stByte s 1) (stByte rk 1),
   maskXor (stByte s 2) (stByte rk 2), maskXor (stByte s 3) (stByte rk 3),
   maskXor (stByte s 4) (stByte rk 4), maskXor (stByte s 5) (stByte rk 5),
   maskXor (stByte s 6) (stByte rk 6), maskXor (stByte s 7) (stByte rk 7),
   maskXor (stByte s 8) (stByte rk 8), maskXor (stByte s 9) (stByte rk 9),
   maskXor (stByte s 10) (stByte rk 10), maskXor (stByte s 11) (stByte rk 11),
   maskXor (stByte s 12) (stByte rk 12), maskXor (stByte s 13) (stByte rk 13),
   maskXor (stByte s 14) (stByte rk 14), maskXor (stByte s 15) (stByte rk 15)]

/-- AES-256 encryption of one 16-byte block. -/
def aesEncrypt (key block : List Nat) : List Nat :=
  let w := expandKey key
  let st := addRoundKey (roundKey w 0) block
  let st := (List.range 13).foldl
    (fun st r => addRoundKey (roundKey w (r + 1)) (mixColumns (shiftRows (subBytes st)))) st
  addRoundKey (roundKey w 14) (shiftRows (subBytes st))

/-! GCM mode, as constructed by `cipher.NewGCM` (96-bit nonce, 128-bit
tag), used by `encryptData`/`decryptData`. -/

/-- Nonce size of the GCM construction. -/
def gcmNonceSize : Nat := 12

/-- Tag size of the GCM construction. -/
def gcmTagSize : Nat := 16

/-- Block size reported by the AES cipher. -/
def aesBlockSize : Nat := 16

/-- Big-endian integer value of a byte list. -/
def bytesToNat (l : List Nat) : Nat := l.foldl (fun acc b => acc * 256 + b % 256) 0

/-- Sixteen big-endian bytes of a 128-bit value. -/
def natToBytes16 (n : Nat) : List Nat := (List.range 16).map fun i => n >>> (8 * (15 - i)) % 256

/-- GF(2^128) product in the bit order of GCM, one step per bit of the
first factor, most significant first. -/
def gf128MulAux : Nat → Nat → Nat → Nat → Nat
  | 0, _, _, z => z
  | fuel + 1, x, v, z =>
    let z := if x >>> 127 % 2 = 1 then z ^^^ v else z
    let v := if v % 2 = 1 then (v >>> 1) ^^^ (0xe1 <<< 120) else v >>> 1
    gf128MulAux fuel ((x <<< 1) % 340282366920938463463374607431768211456) v z

/-- GF(2^128) multiplication. -/
def gf128Mul (x y : Nat) : Nat := gf128MulAux 128 x y 0

/-- Pad a block to 16 bytes with zeros. -/
def padBlock (b : List Nat) : List Nat := b ++ List.replicate (16 - b.length) 0

/-- GHASH of the ciphertext (empty additional data), as in the GCM tag
computation: fold the padded blocks, then the length block. -/
def ghash (hKey : Nat) (ct : List Nat) : Nat :=
  let y := ((chunksOf 16 ct).map fun b => bytesToNat (padBlock b)).foldl
    (fun y b => gf128Mul (y ^^^ b) hKey) 0
  gf128Mul (y ^^^ (ct.length * 8) % 18446744073709551616) hKey

/-- Counter block `nonce ++ counter` used by GCM in counter mode; the
first keystream block of the payload uses counter value 2. -/
def ctrBlock (nonce : List Nat) (i : Nat) : List Nat := nonce ++ be32 ((2 + i) % 4294967296)

/-- Keystream blocks 0 to m-1. -/
def ksAux (key nonce : List Nat) : Nat → List Nat
  | 0 => []
  | m + 1 => ksAux key nonce m ++ aesEncrypt key (ctrBlock nonce m)

/-- First n bytes of the GCM keystream. -/
def keystream (key nonce : List Nat) (n : Nat) : List Nat :=
  (ksAux key nonce ((n + 15) / 16)).take n

/-- Counter-mode encryption: xor the payload with the keystream. -/
def ctrCrypt (key nonce src : List Nat) : List Nat :=
  List.zipWith maskXor src (keystream key nonce src.length)

/-- GCM authentication tag over the ciphertext: GHASH masked with the
encrypted initial counter block. -/
def gcmTag (key nonce ct : List Nat) : List Nat :=
  let hKey := bytesToNat (aesEncrypt key (List.replicate 16 0))
  let tagMask := aesEncrypt key (nonce ++ be32 1)
  List.zipWith maskXor (natToBytes16 (ghash hKey ct)) tagMask

/-- Model of `subtle.ConstantTimeCompare`: 1 when the two byte lists are
equal, 0 otherwise (length mismatch included). -/
def subtleCTC (x y : List Nat) : Nat :=
  if x.length ≠ y.length then 0
  else if (List.zipWith (fun a b => a ^^^ b) x y).foldl (fun acc v => acc ||| v) 0 = 0 then 1
  else 0

/-- Model of `gcm.Seal(dst, nonce, plaintext, nil)`: the destination
followed by the counter-mode ciphertext and the tag. -/
def gcmSeal (key dst nonce pt : List Nat) : List Nat :=
  let ct := ctrCrypt key nonce pt
  dst ++ ct ++ gcmTag key nonce ct

/-- Errors of the decryption path, one per distinct Go error value. -/
inductive DecErr where
  | badBase64
  | tooShort
  | authFailed
  | badKeySize
  | badBlockSize
  | randShort
deriving Repr, DecidableEq

/-- Model of `gcm.Open(nil, nonce, data, nil)`: check the tag in constant
time, then decrypt in counter mode. -/
def gcmOpen (key nonce data : List Nat) : Except DecErr (List Nat) :=
  if data.length < gcmTagSize then .error .authFailed
  else
    let ct := data.take (data.length - gcmTagSize)
    let tag := data.drop (data.length - gcmTagSize)
    if subtleCTC (gcmTag key nonce ct) tag = 1 then .ok (ctrCrypt key nonce ct)
    else .error .authFailed

/-! Base64 (standard alphabet with padding), as used through
`base64.StdEncoding` for the wire token. -/

/-- Standard base64 alphabet. -/
def b64Alphabet : Str := "ABCDEFGHIJKLMNOPQRSTUVWXYZabcdefghijklmnopqrstuvwxyz0123456789+/".toList

/-- Character of a 6-bit value. -/
def b64c (i : Nat) : Char := b64Alphabet.getD i 'A'

/-- Scan for a character in the alphabet tail, carrying its index. -/
def b64idxAux (c : Char) : Str → Nat → Option Nat
  | [], _ => none
  | a :: t, i => if a == c then some i else b64idxAux c t (i + 1)

/-- Index of an alphabet character, `none` for anything else. -/
def b64idx (c : Char) : Option Nat := b64idxAux c b64Alphabet 0

/-- Model of `base64.StdEncoding.EncodeToString` on a byte list. -/
def encodeB64 : List Nat → Str
  | a :: b :: c :: rest =>
    let n := (a % 256) * 65536 + (b % 256) * 256 + c % 256
    b64c (n / 262144) :: b64c (n / 4096 % 64) :: b64c (n / 64 % 64) :: b64c (n % 64) ::
      encodeB64 rest
  | [a, b] =>
    let n := (a % 256) * 65536 + (b % 256) * 256
    [b64c (n / 262144), b64c (n / 4096 % 64), b64c (n / 64 % 64), '=']
  | [a] =>
    let n := (a % 256) * 65536
    [b64c (n / 262144), b64c (n / 4096 % 64), '=', '=']
  | [] => []

/-- Decoder over the filtered characters: four at a time, padding only in
the final quantum.  Mirrors the acceptance of `StdEncoding.DecodeString`. -/
def decodeB64Chars : Str → Option (List Nat)
  | [] => some []
  | c1 :: c2 :: c3 :: c4 :: rest =>
    match b64idx c1, b64idx c2 with
    | some i1, some i2 =>
      if c3 == '=' then
        if c4 == '=' && rest.isEmpty then some [i1 * 4 + i2 / 16] else none
      else
        match b64idx c3 with
        | some i3 =>
          if c4 == '=' then
            if rest.isEmpty then some [i1 * 4 + i2 / 16, i2 % 16 * 16 + i3 / 4] else none
          else
            match b64idx c4 with
            | some i4 =>
              let n := i1 * 262144 + i2 * 4096 + i3 * 64 + i4
              (decodeB64Chars rest).map (fun ds => n / 65536 :: n / 256 % 256 :: n % 256 :: ds)
            | none => none
        | none => none
    | _, _ => none
  | _ => none

/-- Model of `base64.StdEncoding.DecodeString`: newline characters are
ignored, then the padded quanta are decoded. -/
def decodeB64 (s : Str) : Option (List Nat) :=
  decodeB64Chars (s.filter fun c => !(c == '\x0d' || c == '\n'))

/-! The Secure Codec: `encryptData` and `decryptData` of `main.go`.  The
random source is an explicit parameter of encryption: the bytes that
`io.ReadFull(rand.Reader, nonce)` places in the nonce buffer. -/

/-- Model of `aes.NewCipher`: accepts 16, 24 or 32 byte keys. -/
def aesNewCipher (key : List Nat) : Except DecErr (List Nat) :=
  if key.length = 16 ∨ key.length = 24 ∨ key.length = 32 then .ok key
  else .error .badKeySize

/-- Model of `cipher.NewGCM`: accepts a cipher of 16-byte blocks. -/
def newGCM (key : List Nat) : Except DecErr (List Nat) :=
  if aesBlockSize = 16 then .ok key else .error .badBlockSize

/-- Model of `encryptData(plaintext, password)`: derive the key, build the
GCM instance, draw the 12-byte nonce from the random source, seal with the
nonce as destination prefix, and base64-encode. -/
def encryptData (plaintext : List Nat) (password : Str) (randBytes : List Nat) :
    Except DecErr Str :=
  match aesNewCipher (deriveKey password) with
  | .error e => .error e
  | .ok c =>
    match newGCM c with
    | .error e => .error e
    | .ok key =>
      if randBytes.length < gcmNonceSize then .error .randShort
      else
        let nonce := randBytes.take gcmNonceSize
        .ok (encodeB64 (gcmSeal key nonce nonce plaintext))

/-- Model of `decryptData(encoded, password)`: base64-decode, derive the
key, build the GCM instance, split off the nonce, and open. -/
def decryptData (encoded : Str) (password : Str) : Except DecErr (List Nat) :=
  match decodeB64 encoded with
  | none => .error .badBase64
  | some data =>
    match aesNewCipher (deriveKey password) with
    | .error e => .error e
    | .ok c =>
      match newGCM c with
      | .error e => .error e
      | .ok key =>
        if data.length < gcmNonceSize then .error .tooShort
        else gcmOpen key (data.take gcmNonceSize) (data.drop gcmNonceSize)

/-! The Connection Dispatcher of `startTCPServer`, the client-side
`verifyPeer`, and the UDP Discovery Listener of `listenUDP`.  Each
connection handler is a pure function from the header line and the
payload read from the connection to its observable outcome: the reply
lines written back, the files created, and the events published on the
network channel. -/

/-- Events published on the network channel. -/
inductive NetEvent where
  | status (s : Str)
  | chat (sender content : Str)
  | peerSeen (name ip lastMsg : Str)
  | peerVerified (ip : Str) (secure : Bool)
deriving Repr, DecidableEq

/-- Observable outcome of one handled TCP connection. -/
structure ConnOutcome where
  replies : List Str
  files : List (Str × List Nat)
  events : List NetEvent
deriving Repr, DecidableEq

/-- Bytes rendered back into a Go string (`string(plaintext)`). -/
def bytesToStr (l : List Nat) : Str := l.map Char.ofNat

/-- EFILE branch of the dispatcher: acknowledge, then decrypt and store
only when a password is configured. -/
def efileOutcome (password : Str) (name : Str) (payload : Str) : ConnOutcome :=
  if !(password == []) then
    match decryptData payload password with
    | .error _ => ⟨["ACCEPTED".toList], [], [.status ("Failed to decrypt file: ".toList ++ name)]⟩
    | .ok pt =>
      ⟨["ACCEPTED".toList], [("received_".toList ++ name, pt)],
        [.status ("Received (encrypted): ".toList ++ name)]⟩
  else
    ⟨["ACCEPTED".toList], [],
      [.status ("Encrypted file received but no password set: ".toList ++ name)]⟩

/-- CHAT branch: split the rest of the header at the first colon and
publish sender and trimmed text; one-part splits publish nothing. -/
def chatEvents (rest : Str) : List NetEvent :=
  match splitFirstColon rest with
  | some (sender, text) => [.chat sender (trimSpace text)]
  | none => []

/-- ECHAT decryption step on an already-split sender and payload. -/
def echatEvents (password : Str) (sender payload : Str) : List NetEvent :=
  if !(password == []) then
    match decryptData payload password with
    | .error _ => [.chat sender "[Could not decrypt - password mismatch]".toList]
    | .ok pt => [.chat sender (bytesToStr pt)]
  else [.chat sender "[Encrypted message - no password set]".toList]

/-- ECHAT branch: split, trim the payload, then decrypt. -/
def echatBranch (password : Str) (rest : Str) : List NetEvent :=
  match splitFirstColon rest with
  | some (sender, payload) => echatEvents password sender (trimSpace payload)
  | none => []

/-- VERIFY responder reply: `VMATCH` only when a local fingerprint exists
and the remote one equals it under the constant-time compare. -/
def verifyReply (passHash remote : Str) : Str :=
  if !(passHash == []) && subtleCTC (strBytes remote) (strBytes passHash) == 1 then
    "VMATCH".toList
  else "VNOMATCH".toList

/-- One handled connection of the TCP dispatcher: read the header line,
branch on its prefix. -/
def handleConn (password passHash : Str) (header : Str) (payload : Str) : ConnOutcome :=
  if "FILE:".toList.isPrefixOf header then
    let name := trimSpace (header.drop 5)
    ⟨["ACCEPTED".toList], [("received_".toList ++ name, strBytes payload)],
      [.status ("Received: ".toList ++ name)]⟩
  else if "EFILE:".toList.isPrefixOf header then
    efileOutcome password (trimSpace (header.drop 6)) payload
  else if "CHAT:".toList.isPrefixOf header then
    ⟨[], [], chatEvents (header.drop 5)⟩
  else if "ECHAT:".toList.isPrefixOf header then
    ⟨[], [], echatBranch password (header.drop 6)⟩
  else if "VERIFY:".toList.isPrefixOf header then
    ⟨[verifyReply passHash (trimSpace (header.drop 7))], [], []⟩
  else ⟨[], [], []⟩

/-- Fingerprint configured at startup in `main`: empty unless a password
was supplied. -/
def mkPassHash (password : Str) : Str :=
  if !(password == []) then passwordFingerprint password else []

/-- Network interaction observed by one `verifyPeer` attempt: the dial
fails, the response read fails, or a response line is read. -/
inductive VerifyIO where
  | dialFail
  | readFail
  | resp (line : Str)
deriving Repr, DecidableEq

/-- Result of a `verifyPeer` attempt. -/
def verifyPeerResult : VerifyIO → Bool
  | .dialFail => false
  | .readFail => false
  | .resp line => trimSpace line == "VMATCH".toList

/-- Events delivered by one `verifyPeer` attempt. -/
def verifyPeerEvents (ip : Str) (io : VerifyIO) : List NetEvent :=
  [.peerVerified ip (verifyPeerResult io)]

/-- One received UDP datagram. -/
structure Datagram where
  ip : Str
  payload : Str
deriving Repr, DecidableEq

/-- State accumulated by the Discovery Listener: the `discovered` map,
the events sent on the channel, and the addresses for which a
`verifyPeer` goroutine was spawned. -/
structure DiscState where
  discovered : List (Str × Str)
  events : List NetEvent
  verifies : List Str
deriving Repr, DecidableEq

/-- Empty listener state. -/
def discInit : DiscState := ⟨[], [], []⟩

/-- Processing of one datagram by `listenUDP`: `IAM:` payloads from other
nodes are looked up in `discovered`; `LoadOrStore` inserts only when the
address is absent, and only then is a peer event published and (with a
configured password) a verification spawned. -/
def udpStep (myName passHash : Str) (st : DiscState) (d : Datagram) : DiscState :=
  if "IAM:".toList.isPrefixOf d.payload then
    let pName := d.payload.drop 4
    if pName == myName then st
    else
      match lookupA st.discovered d.ip with
      | some _ => st
      | none =>
        { discovered := st.discovered ++ [(d.ip, pName)]
          events := st.events ++ [.peerSeen pName d.ip "Connected".toList]
          verifies := st.verifies ++ if !(passHash == []) then [d.ip] else [] }
  else st

/-- Listener state after a sequence of datagrams. -/
def runUDP (myName passHash : Str) (ds : List Datagram) : DiscState :=
  ds.foldl (udpStep myName passHash) discInit

/-! Basic lemmas about the byte arithmetic and the fixed sizes of the
embedded primitives. -/

/-- Byte xor is an involution on byte values. -/
theorem maskXor_maskXor (p k : Nat) (hp : p < 256) : maskXor (maskXor p k) k = p := by
  apply Nat.eq_of_testBit_eq
  intro i
  show (((p ^^^ k) % 256 ^^^ k) % 256).testBit i = p.testBit i
  rw [show (256 : Nat) = 2 ^ 8 by norm_num, Nat.testBit_mod_two_pow, Nat.testBit_xor,
    Nat.testBit_mod_two_pow, Nat.testBit_xor]
  by_cases hi : i < 8
  · simp only [hi, decide_True, Bool.true_and]
    cases p.testBit i <;> cases k.testBit i <;> rfl
  · have h8 : (2 : Nat) ^ 8 ≤ 2 ^ i := Nat.pow_le_pow_right (by norm_num) (by omega)
    have hp2 : p < 2 ^ i := lt_of_lt_of_le hp (by simpa using h8)
    simp only [hi, decide_False, Bool.false_and]
    exact (Nat.testBit_lt_two_pow hp2).symm

/-- Elements produced by the counter-mode xor are bytes. -/
theorem zipWith_maskXor_lt : ∀ (a b : List Nat), ∀ x ∈ List.zipWith maskXor a b, x < 256
  | [], _ => by simp
  | _ :: _, [] => by simp
  | p :: a, k :: b => by
    intro x hx
    rw [List.zipWith_cons_cons, List.mem_cons] at hx
    rcases hx with rfl | h
    · exact Nat.mod_lt _ (by norm_num)
    · exact zipWith_maskXor_lt a b x h

/-- Undoing the counter-mode xor with the same keystream restores the
byte payload. -/
theorem zipWith_maskXor_roundtrip :
    ∀ (pt ks : List Nat), ks.length = pt.length → (∀ x ∈ pt, x < 256) →
      List.zipWith maskXor (List.zipWith maskXor pt ks) ks = pt
  | [], _, _, _ => by simp
  | p :: pt, [], h, _ => by simp at h
  | p :: pt, k :: ks, h, hb => by
    rw [List.zipWith_cons_cons, List.zipWith_cons_cons,
      maskXor_maskXor p k (hb p (by simp)),
      zipWith_maskXor_roundtrip pt ks (by simpa using h) (fun x hx => hb x (by simp [hx]))]

/-- Bitwise or is zero only when both operands are. -/
theorem natOr_eq_zero (a b : Nat) : a ||| b = 0 ↔ a = 0 ∧ b = 0 := by
  constructor
  · intro h
    constructor <;> apply Nat.eq_of_testBit_eq <;> intro i <;>
      have h2 := congrArg (Nat.testBit · i) h <;>
      simp [Nat.testBit_or] at h2 ⊢ <;> tauto
  · rintro ⟨rfl, rfl⟩
    rfl

/-- The or-accumulator of the constant-time compare is zero exactly when
the start value and every folded value are. -/
theorem orFold_eq_zero (l : List Nat) :
    ∀ c, l.foldl (fun acc v => acc ||| v) c = 0 ↔ c = 0 ∧ ∀ v ∈ l, v = 0 := by
  induction l with
  | nil => simp
  | cons h t ih =>
    intro c
    rw [List.foldl_cons, ih, natOr_eq_zero]
    simp [List.forall_mem_cons, and_assoc]

/-- Pairwise xor of two equally long lists vanishes exactly on equal
lists. -/
theorem zipXor_zero_iff :
    ∀ (x y : List Nat), x.length = y.length →
      ((∀ v ∈ List.zipWith (fun a b => a ^^^ b) x y, v = 0) ↔ x = y)
  | [], [], _ => by simp
  | [], _ :: _, h => by simp at h
  | _ :: _, [], h => by simp at h
  | a :: x, b :: y, h => by
    rw [List.zipWith_cons_cons]
    simp only [List.forall_mem_cons]
    rw [zipXor_zero_iff x y (by simpa using h)]
    constructor
    · rintro ⟨h1, h2⟩
      rw [Nat.xor_eq_zero.mp h1, h2]
    · intro he
      cases he
      exact ⟨Nat.xor_eq_zero.mpr rfl, rfl⟩

/-- The constant-time compare returns 1 exactly on equal byte lists. -/
theorem subtleCTC_eq_one_iff (x y : List Nat) : subtleCTC x y = 1 ↔ x = y := by
  unfold subtleCTC
  by_cases hl : x.length = y.length
  · rw [if_neg (by simp [hl])]
    by_cases hz : (List.zipWith (fun a b => a ^^^ b) x y).foldl (fun acc v => acc ||| v) 0 = 0
    · rw [if_pos hz]
      have hall := ((orFold_eq_zero _ 0).mp hz).2
      exact ⟨fun _ => (zipXor_zero_iff x y hl).mp hall, fun _ => rfl⟩
    · rw [if_neg hz]
      constructor
      · intro h
        exact absurd h (by norm_num)
      · intro he
        exact absurd ((orFold_eq_zero _ 0).mpr
          ⟨rfl, (zipXor_zero_iff x y hl).mpr he⟩) hz
  · rw [if_pos hl]
    constructor
    · intro h
      exact absurd h (by norm_num)
    · intro he
      exact absurd (congrArg List.length he) hl

/-- The constant-time compare accepts a list against itself. -/
theorem subtleCTC_self (x : List Nat) : subtleCTC x x = 1 :=
  (subtleCTC_eq_one_iff x x).mpr rfl

/-- SHA-256 digests have 32 bytes. -/
theorem sha256_length (msg : List Nat) : (sha256 msg).length = 32 := rfl

/-- The derived AEAD key has 32 bytes for every password. -/
theorem deriveKey_length (password : Str) : (deriveKey password).length = 32 :=
  sha256_length _

/-- AES blocks have 16 bytes. -/
theorem aesEncrypt_length (key block : List Nat) : (aesEncrypt key block).length = 16 := rfl

/-- The serialized GHASH value has 16 bytes. -/
theorem natToBytes16_length (n : Nat) : (natToBytes16 n).length = 16 := by
  simp [natToBytes16]

/-- GCM tags have 16 bytes. -/
theorem gcmTag_length (key nonce ct : List Nat) : (gcmTag key nonce ct).length = 16 := by
  simp [gcmTag, natToBytes16_length, aesEncrypt_length]

/-- Length of m keystream blocks. -/
theorem ksAux_length (key nonce : List Nat) : ∀ m, (ksAux key nonce m).length = 16 * m
  | 0 => rfl
  | m + 1 => by
    simp [ksAux, ksAux_length key nonce m, aesEncrypt_length]
    ring

/-- The keystream provides exactly the requested number of bytes. -/
theorem keystream_length (key nonce : List Nat) (n : Nat) :
    (keystream key nonce n).length = n := by
  simp only [keystream, List.length_take, ksAux_length]
  omega

/-- Counter-mode output has the length of its input. -/
theorem ctrCrypt_length (key nonce src : List Nat) :
    (ctrCrypt key nonce src).length = src.length := by
  simp [ctrCrypt, keystream_length]

/-- Counter-mode output consists of bytes. -/
theorem ctrCrypt_lt (key nonce src : List Nat) : ∀ x ∈ ctrCrypt key nonce src, x < 256 :=
  zipWith_maskXor_lt _ _

/-- GCM tags consist of bytes. -/
theorem gcmTag_lt (key nonce ct : List Nat) : ∀ x ∈ gcmTag key nonce ct, x < 256 := by
  intro x hx
  exact zipWith_maskXor_lt _ _ x hx

/-- Counter mode is an involution on byte payloads. -/
theorem ctrCrypt_ctrCrypt (key nonce pt : List Nat) (hb : ∀ x ∈ pt, x < 256) :
    ctrCrypt key nonce (ctrCrypt key nonce pt) = pt := by
  unfold ctrCrypt
  rw [List.length_zipWith, keystream_length, Nat.min_self]
  exact zipWith_maskXor_roundtrip pt _ (keystream_length _ _ _) hb

/-- Hex encoding doubles the length. -/
theorem hexEncode_length (l : List Nat) : (hexEncode l).length = 2 * l.length := by
  induction l with
  | nil => rfl
  | cons b t ih =>
    simp [hexEncode, List.flatMap_cons] at ih ⊢
    omega

/-- Fingerprints are 64 hex characters, in particular never empty. -/
theorem passwordFingerprint_ne_nil (p : Str) : passwordFingerprint p ≠ [] := by
  intro h
  have h2 := congrArg List.length h
  rw [passwordFingerprint, hexEncode_length, sha256_length] at h2
  simp at h2

/-! Lemmas about the base64 coder: decoding inverts encoding on byte
lists. -/

/-- Decoding an alphabet character recovers its index. -/
theorem b64idx_b64c : ∀ i < 64, b64idx (b64c i) = some i := by decide

/-- Alphabet characters are not the padding character. -/
theorem b64c_ne_pad : ∀ i < 64, (b64c i == '=') = false := by decide

/-- Alphabet characters survive the newline filter. -/
theorem b64c_clean : ∀ i < 64, (!(b64c i == '\x0d' || b64c i == '\n')) = true := by decide

/-- Every character emitted by the encoder is padding or an alphabet
character. -/
theorem encodeB64_mem :
    ∀ l : List Nat, ∀ c ∈ encodeB64 l, c = '=' ∨ ∃ i, i < 64 ∧ c = b64c i
  | [] => by simp [encodeB64]
  | [a] => by
    intro c hc
    simp only [encodeB64, List.mem_cons, List.not_mem_nil, or_false] at hc
    rcases hc with rfl | rfl | rfl | rfl
    · exact .inr ⟨_, by omega, rfl⟩
    · exact .inr ⟨_, by omega, rfl⟩
    · exact .inl rfl
    · exact .inl rfl
  | [a, b] => by
    intro c hc
    simp only [encodeB64, List.mem_cons, List.not_mem_nil, or_false] at hc
    rcases hc with rfl | rfl | rfl | rfl
    · exact .inr ⟨_, by omega, rfl⟩
    · exact .inr ⟨_, by omega, rfl⟩
    · exact .inr ⟨_, by omega, rfl⟩
    · exact .inl rfl
  | a :: b :: c :: rest => by
    intro x hx
    simp only [encodeB64, List.mem_cons] at hx
    rcases hx with rfl | rfl | rfl | rfl | h
    · exact .inr ⟨_, by omega, rfl⟩
    · exact .inr ⟨_, by omega, rfl⟩
    · exact .inr ⟨_, by omega, rfl⟩
    · exact .inr ⟨_, by omega, rfl⟩
    · exact encodeB64_mem rest x h

/-- The newline filter of the decoder leaves encoder output unchanged. -/
theorem encodeB64_filter (l : List Nat) :
    (encodeB64 l).filter (fun c => !(c == '\x0d' || c == '\n')) = encodeB64 l := by
  apply List.filter_eq_self.mpr
  intro c hc
  rcases encodeB64_mem l c hc with rfl | ⟨i, hi, rfl⟩
  · decide
  · exact b64c_clean i hi

/-- Decoding the encoder output over the raw characters recovers the byte
list. -/
theorem decodeChars_encode : ∀ l : List Nat, (∀ x ∈ l, x < 256) →
    decodeB64Chars (encodeB64 l) = some l
  | [], _ => rfl
  | [a], hb => by
    have ha : a < 256 := hb a (by simp)
    simp only [encodeB64, decodeB64Chars]
    rw [b64idx_b64c ((a % 256) * 65536 / 262144) (by omega),
      b64idx_b64c ((a % 256) * 65536 / 4096 % 64) (by omega)]
    simp only [beq_self_eq_true, if_true, List.isEmpty_nil, Bool.and_true,
      Option.some.injEq, List.cons.injEq, and_true]
    omega
  | [a, b], hb => by
    have ha : a < 256 := hb a (by simp)
    have hbb : b < 256 := hb b (by simp)
    simp only [encodeB64, decodeB64Chars]
    rw [b64idx_b64c (((a % 256) * 65536 + (b % 256) * 256) / 262144) (by omega),
      b64idx_b64c (((a % 256) * 65536 + (b % 256) * 256) / 4096 % 64) (by omega),
      b64c_ne_pad (((a % 256) * 65536 + (b % 256) * 256) / 64 % 64) (by omega),
      b64idx_b64c (((a % 256) * 65536 + (b % 256) * 256) / 64 % 64) (by omega)]
    simp only [Bool.false_eq_true, if_false, beq_self_eq_true, if_true, List.isEmpty_nil,
      Option.some.injEq, List.cons.injEq, and_true]
    constructor
    · omega
    · omega
  | a :: b :: c :: rest, hb => by
    have ha : a < 256 := hb a (by simp)
    have hbb : b < 256 := hb b (by simp)
    have hc : c < 256 := hb c (by simp)
    have ih := decodeChars_encode rest (fun x hx => hb x (by simp [hx]))
    simp only [encodeB64, decodeB64Chars]
    rw [b64idx_b64c (((a % 256) * 65536 + (b % 256) * 256 + c % 256) / 262144) (by omega),
      b64idx_b64c (((a % 256) * 65536 + (b % 256) * 256 + c % 256) / 4096 % 64) (by omega),
      b64c_ne_pad (((a % 256) * 65536 + (b % 256) * 256 + c % 256) / 64 % 64) (by omega),
      b64idx_b64c (((a % 256) * 65536 + (b % 256) * 256 + c % 256) / 64 % 64) (by omega),
      b64c_ne_pad (((a % 256) * 65536 + (b % 256) * 256 + c % 256) % 64) (by omega),
      b64idx_b64c (((a % 256) * 65536 + (b % 256) * 256 + c % 256) % 64) (by omega)]
    simp only [Bool.false_eq_true, if_false, ih, Option.map_some', Option.some.injEq,
      List.cons.injEq]
    refine ⟨by omega, by omega, by omega, trivial⟩

/-- Decoding inverts encoding on byte lists. -/
theorem decodeB64_encodeB64 (l : List Nat) (hb : ∀ x ∈ l, x < 256) :
    decodeB64 (encodeB64 l) = some l := by
  rw [decodeB64, encodeB64_filter]
  exact decodeChars_encode l hb

/-! Lemmas about the Secure Codec. -/

/-- The cipher construction accepts every derived key: the digest always
has one of the three admissible lengths. -/
theorem aesNewCipher_deriveKey (p : Str) :
    aesNewCipher (deriveKey p) = .ok (deriveKey p) := by
  simp [aesNewCipher, deriveKey_length]

/-- The GCM construction accepts the AES cipher. -/
theorem newGCM_ok (key : List Nat) : newGCM key = .ok key := by
  simp [newGCM, aesBlockSize]

/-- Encryption succeeds whenever the random source supplies at least the
nonce bytes, and produces the base64 encoding of nonce, ciphertext and
tag. -/
theorem encryptData_eq (pt : List Nat) (p : Str) (r : List Nat)
    (hr : gcmNonceSize ≤ r.length) :
    encryptData pt p r =
      .ok (encodeB64 (gcmSeal (deriveKey p) (r.take gcmNonceSize) (r.take gcmNonceSize) pt)) := by
  simp only [encryptData, aesNewCipher_deriveKey, newGCM_ok]
  rw [if_neg (by omega)]

/-- Opening a sealed payload with the sealing nonce and key succeeds and
restores the payload. -/
theorem gcmOpen_gcmSeal (key nonce pt : List Nat) (hb : ∀ x ∈ pt, x < 256) :
    gcmOpen key nonce
      (ctrCrypt key nonce pt ++ gcmTag key nonce (ctrCrypt key nonce pt)) = .ok pt := by
  have hlen : (ctrCrypt key nonce pt ++ gcmTag key nonce (ctrCrypt key nonce pt)).length =
      (ctrCrypt key nonce pt).length + 16 := by
    rw [List.length_append, gcmTag_length]
  rw [gcmOpen, if_neg (by rw [hlen]; simp [gcmTagSize])]
  have hsub : (ctrCrypt key nonce pt ++ gcmTag key nonce (ctrCrypt key nonce pt)).length -
      gcmTagSize = (ctrCrypt key nonce pt).length := by
    rw [hlen]
    simp [gcmTagSize]
  rw [hsub, List.take_left, List.drop_left, if_pos (subtleCTC_self _),
    ctrCrypt_ctrCrypt key nonce pt hb]

/-- Decrypting the sealed token with the sealing password restores the
plaintext. -/
theorem decryptData_gcmSeal (pt : List Nat) (p : Str) (r : List Nat)
    (hr : r.length = 12) (hrb : ∀ x ∈ r, x < 256) (hb : ∀ x ∈ pt, x < 256) :
    decryptData (encodeB64 (gcmSeal (deriveKey p) r r pt)) p = .ok pt := by
  have hbytes : ∀ x ∈ gcmSeal (deriveKey p) r r pt, x < 256 := by
    intro x hx
    rw [gcmSeal, List.append_assoc] at hx
    rcases List.mem_append.mp hx with h | h
    · exact hrb x h
    · rcases List.mem_append.mp h with h2 | h2
      · exact ctrCrypt_lt _ _ _ x h2
      · exact gcmTag_lt _ _ _ x h2
  simp only [decryptData, decodeB64_encodeB64 _ hbytes, aesNewCipher_deriveKey, newGCM_ok]
  have hlen : (gcmSeal (deriveKey p) r r pt).length =
      12 + ((ctrCrypt (deriveKey p) r pt).length + 16) := by
    rw [gcmSeal, List.append_assoc, List.length_append, List.length_append,
      gcmTag_length, hr]
  rw [if_neg (by rw [hlen]; simp only [gcmNonceSize]; omega)]
  have h12 : gcmNonceSize = r.length := by
    rw [hr, gcmNonceSize]
  rw [show gcmSeal (deriveKey p) r r pt =
      r ++ (ctrCrypt (deriveKey p) r pt ++ gcmTag (deriveKey p) r (ctrCrypt (deriveKey p) r pt))
    from by rw [gcmSeal, List.append_assoc]]
  rw [h12, List.take_left, List.drop_left]
  exact gcmOpen_gcmSeal (deriveKey p) r pt hb

/-- A failed `Except` computation carries some error value. -/
theorem isOk_false_error {α : Type} (x : Except DecErr α) (h : x.isOk = false) :
    ∃ e, x = .error e := by
  cases x with
  | error e => exact ⟨e, rfl⟩
  | ok v => simp [Except.isOk, Except.toBool] at h

/-- Take of the full nonce out of a 12-byte draw. -/
theorem take_nonce (r : List Nat) (hr : r.length = 12) : r.take gcmNonceSize = r := by
  rw [show gcmNonceSize = r.length by rw [hr, gcmNonceSize]]
  exact List.take_length r

/-- The GCM open step fails exactly when the blob is shorter than the tag
or the recomputed tag differs from the transmitted one. -/
theorem gcmOpen_isOk_false_iff (key nonce data : List Nat) :
    (gcmOpen key nonce data).isOk = false ↔
      data.length < gcmTagSize ∨
        gcmTag key nonce (data.take (data.length - gcmTagSize)) ≠
          data.drop (data.length - gcmTagSize) := by
  unfold gcmOpen
  by_cases h1 : data.length < gcmTagSize
  · simp [h1, Except.isOk, Except.toBool]
  · rw [if_neg h1]
    by_cases h2 : subtleCTC (gcmTag key nonce (data.take (data.length - gcmTagSize)))
        (data.drop (data.length - gcmTagSize)) = 1
    · rw [if_pos h2]
      simp [Except.isOk, Except.toBool, h1, (subtleCTC_eq_one_iff _ _).mp h2]
    · rw [if_neg h2]
      simp only [Except.isOk, Except.toBool, h1, false_or, true_iff]
      exact fun heq => h2 ((subtleCTC_eq_one_iff _ _).mpr heq)

/-- Decryption fails exactly on invalid base64, a blob shorter than the
nonce, or a failing GCM open. -/
theorem decryptData_isOk_false_iff (tok p : Str) :
    (decryptData tok p).isOk = false ↔
      decodeB64 tok = none ∨
        ∃ d, decodeB64 tok = some d ∧ (d.length < gcmNonceSize ∨
          (gcmOpen (deriveKey p) (d.take gcmNonceSize) (d.drop gcmNonceSize)).isOk = false) := by
  cases hd : decodeB64 tok with
  | none => simp [decryptData, hd, Except.isOk, Except.toBool]
  | some d =>
    simp only [decryptData, hd, aesNewCipher_deriveKey, newGCM_ok]
    by_cases hlen : d.length < gcmNonceSize
    · rw [if_pos hlen]
      simp [Except.isOk, Except.toBool, hlen]
    · rw [if_neg hlen]
      simp [hlen]

/-! Claim theorems. -/

/-- C1: for every byte payload, every password, and every 12-byte nonce
value supplied by the random source, decrypting the encryption result
with the same password succeeds and returns exactly the payload. -/
theorem claim1_roundtrip (b : List Nat) (p : Str) (r : List Nat)
    (hr : r.length = 12) (hrb : ∀ x ∈ r, x < 256) (hb : ∀ x ∈ b, x < 256) :
    ∃ tok, encryptData b p r = .ok tok ∧ decryptData tok p = .ok b := by
  have he := encryptData_eq b p r (by rw [hr]; exact le_rfl)
  rw [take_nonce r hr] at he
  exact ⟨_, he, decryptData_gcmSeal b p r hr hrb hb⟩

/-- C1 witness: the round trip at a concrete payload, password and nonce
draw. -/
theorem claim1_roundtrip_witness :
    (List.replicate 12 0).length = 12 ∧ (∀ x ∈ List.replicate 12 (0 : Nat), x < 256) ∧
      (∀ x ∈ [104, 105], x < (256 : Nat)) ∧
      ∃ tok, encryptData [104, 105] "pw".toList (List.replicate 12 0) = .ok tok ∧
        decryptData tok "pw".toList = .ok [104, 105] :=
  ⟨by decide, by decide, by decide,
    claim1_roundtrip _ _ _ (by decide) (by decide) (by decide)⟩

/-- C10: encryption never returns an error when the random source
supplies the nonce bytes: the derived key always has 32 bytes, so the
cipher-construction and GCM-construction error branches are unreachable
and encryption always succeeds. -/
theorem claim10_encrypt_total (b : List Nat) (p : Str) (r : List Nat)
    (hr : 12 ≤ r.length) :
    (deriveKey p).length = 32 ∧ ∃ tok, encryptData b p r = .ok tok :=
  ⟨deriveKey_length p, _, encryptData_eq b p r hr⟩

/-- C10 witness: encryption succeeds at a concrete input, with the empty
password included. -/
theorem claim10_encrypt_total_witness :
    12 ≤ (List.replicate 12 0).length ∧
      ((deriveKey []).length = 32 ∧ ∃ tok, encryptData [] [] (List.replicate 12 0) = .ok tok) :=
  ⟨by decide, claim10_encrypt_total [] [] _ (by decide)⟩

/-- C3: each encryption call uses as nonce exactly the 12 fresh bytes
drawn from the random source during that call and outputs the base64
encoding of nonce followed by ciphertext and tag; the nonce used does not
depend on the plaintext or the password, and two calls whose random draws
differ produce different tokens. -/
theorem claim3_nonce_freshness (b : List Nat) (p : Str) (r r2 : List Nat)
    (hr : r.length = 12) (hrb : ∀ x ∈ r, x < 256)
    (hr2 : r2.length = 12) (hrb2 : ∀ x ∈ r2, x < 256) (hne : r ≠ r2) :
    (∀ (b' : List Nat) (p' : Str),
        encryptData b' p' r = .ok (encodeB64 (gcmSeal (deriveKey p') r r b')) ∧
        (decodeB64 (encodeB64 (gcmSeal (deriveKey p') r r b'))).map
          (List.take gcmNonceSize) = some r) ∧
      encryptData b p r ≠ encryptData b p r2 := by
  have key : ∀ rr : List Nat, rr.length = 12 → (∀ x ∈ rr, x < 256) →
      ∀ (b' : List Nat) (p' : Str),
        encryptData b' p' rr = .ok (encodeB64 (gcmSeal (deriveKey p') rr rr b')) ∧
        (decodeB64 (encodeB64 (gcmSeal (deriveKey p') rr rr b'))).map
          (List.take gcmNonceSize) = some rr := by
    intro rr hlen hbr b' p'
    have hbytes : ∀ x ∈ gcmSeal (deriveKey p') rr rr b', x < 256 := by
      intro x hx
      rw [gcmSeal, List.append_assoc] at hx
      rcases List.mem_append.mp hx with h | h
      · exact hbr x h
      · rcases List.mem_append.mp h with h2 | h2
        · exact ctrCrypt_lt _ _ _ x h2
        · exact gcmTag_lt _ _ _ x h2
    constructor
    · have he := encryptData_eq b' p' rr (by rw [hlen]; exact le_rfl)
      rw [take_nonce rr hlen] at he
      exact he
    · rw [decodeB64_encodeB64 _ hbytes]
      simp only [Option.map_some', Option.some.injEq]
      rw [show gcmSeal (deriveKey p') rr rr b' =
          rr ++ (ctrCrypt (deriveKey p') rr b' ++
            gcmTag (deriveKey p') rr (ctrCrypt (deriveKey p') rr b'))
        from by rw [gcmSeal, List.append_assoc]]
      rw [show gcmNonceSize = rr.length by rw [hlen, gcmNonceSize], List.take_left]
  refine ⟨key r hr hrb, fun heq => ?_⟩
  have h1 := (key r hr hrb b p).1
  have h2 := (key r2 hr2 hrb2 b p).1
  rw [h1, h2] at heq
  have htok : encodeB64 (gcmSeal (deriveKey p) r r b) =
      encodeB64 (gcmSeal (deriveKey p) r2 r2 b) := by
    injection heq
  have d1 := (key r hr hrb b p).2
  have d2 := (key r2 hr2 hrb2 b p).2
  rw [htok, d2] at d1
  injection d1 with d1
  exact hne d1.symm

/-- C3 witness: the token format and distinctness at two concrete draws. -/
theorem claim3_nonce_freshness_witness :
    (List.replicate 12 0).length = 12 ∧ (∀ x ∈ List.replicate 12 (0 : Nat), x < 256) ∧
      (List.range 12).length = 12 ∧ (∀ x ∈ List.range 12, x < 256) ∧
      List.replicate 12 0 ≠ List.range 12 ∧
      encryptData [1, 2] "pw".toList (List.replicate 12 0) ≠
        encryptData [1, 2] "pw".toList (List.range 12) :=
  ⟨by decide, by decide, by decide, by decide, by decide,
    (claim3_nonce_freshness [1, 2] "pw".toList _ _ (by decide) (by decide) (by decide)
      (by decide) (by decide)).2⟩

/-- C2: decryption fails exactly when the base64 text is invalid, the
decoded blob is shorter than the 12-byte nonce, or the GCM open fails
(which happens exactly when the blob lacks a full tag or the recomputed
tag differs); any two failing tokens lead the EFILE and ECHAT handlers to
identical observable outcomes, so the failure reason is not
distinguishable from the results the caller acts on. -/
theorem claim2_decrypt_failures (tok p sender name : Str) :
    ((decryptData tok p).isOk = false ↔
      decodeB64 tok = none ∨
        ∃ d, decodeB64 tok = some d ∧ (d.length < gcmNonceSize ∨
          (gcmOpen (deriveKey p) (d.take gcmNonceSize) (d.drop gcmNonceSize)).isOk = false)) ∧
    (∀ key nonce data : List Nat,
      (gcmOpen key nonce data).isOk = false ↔
        data.length < gcmTagSize ∨
          gcmTag key nonce (data.take (data.length - gcmTagSize)) ≠
            data.drop (data.length - gcmTagSize)) ∧
    (∀ t1 t2 : Str, (decryptData t1 p).isOk = false → (decryptData t2 p).isOk = false →
      efileOutcome p name t1 = efileOutcome p name t2 ∧
        echatEvents p sender t1 = echatEvents p sender t2) := by
  refine ⟨decryptData_isOk_false_iff tok p,
    fun key nonce data => gcmOpen_isOk_false_iff key nonce data, fun t1 t2 h1 h2 => ?_⟩
  obtain ⟨e1, he1⟩ := isOk_false_error _ h1
  obtain ⟨e2, he2⟩ := isOk_false_error _ h2
  constructor
  · simp [efileOutcome, he1, he2]
  · simp [echatEvents, he1, he2]

/-- C2 witness: two concrete failing tokens, one with invalid text
encoding and one whose decoded blob is shorter than the nonce, yield
identical handler outcomes. -/
theorem claim2_decrypt_failures_witness :
    (decryptData "!".toList []).isOk = false ∧ (decryptData "".toList []).isOk = false ∧
      (efileOutcome [] "f".toList "!".toList = efileOutcome [] "f".toList "".toList ∧
        echatEvents [] "s".toList "!".toList = echatEvents [] "s".toList "".toList) :=
  ⟨by decide, by decide,
    (claim2_decrypt_failures "!".toList [] "s".toList "f".toList).2.2 _ _
      (by decide) (by decide)⟩

/-! Lemmas about the dispatcher embedding. -/

/-- Trailing-whitespace removal absorbs a trailing newline. -/
theorem trimRight_append_nl (l : Str) : trimRight (l ++ ['\n']) = trimRight l := by
  unfold trimRight
  rw [List.reverse_append, show ((['\n'] : Str).reverse ++ l.reverse) = '\n' :: l.reverse
    from rfl, List.dropWhile_cons_of_pos (by decide)]

/-- Trimming absorbs a trailing newline. -/
theorem trimSpace_append_nl (l : Str) : trimSpace (l ++ ['\n']) = trimSpace l := by
  unfold trimSpace trimLeft
  rw [List.dropWhile_append]
  by_cases h : (l.dropWhile isSpaceChar).isEmpty
  · rw [if_pos h]
    rw [List.isEmpty_iff] at h
    rw [h, show (['\n'] : Str).dropWhile isSpaceChar = [] from by decide]
  · rw [if_neg h]
    exact trimRight_append_nl _

/-- Character code points are injective. -/
theorem charToNat_inj : Function.Injective Char.toNat := fun c d hcd => by
  rw [← Char.ofNat_toNat c, ← Char.ofNat_toNat d, hcd]

/-- String-to-bytes conversion is injective. -/
theorem strBytes_inj {a b : Str} (h : strBytes a = strBytes b) : a = b :=
  List.map_injective_iff.mpr charToNat_inj h

/-- Dispatch of a VERIFY header. -/
theorem handleConn_verify (pw ph f pl : Str) :
    handleConn pw ph ("VERIFY:".toList ++ f) pl =
      ⟨[verifyReply ph (trimSpace f)], [], []⟩ := by
  simp [handleConn, List.isPrefixOf]

/-- Dispatch of an EFILE header. -/
theorem handleConn_efile (pw ph rest pl : Str) :
    handleConn pw ph ("EFILE:".toList ++ rest) pl = efileOutcome pw (trimSpace rest) pl := by
  simp [handleConn, List.isPrefixOf]

/-- Dispatch of a CHAT header. -/
theorem handleConn_chat (pw ph rest pl : Str) :
    handleConn pw ph ("CHAT:".toList ++ rest) pl = ⟨[], [], chatEvents rest⟩ := by
  simp [handleConn, List.isPrefixOf]

/-- Splitting at the first colon after a colon-free prefix. -/
theorem splitFirstColon_append (s t : Str) (hs : ':' ∉ s) :
    splitFirstColon (s ++ ':' :: t) = some (s, t) := by
  induction s with
  | nil => simp [splitFirstColon]
  | cons c cs ih =>
    have hc : (c == ':') = false := by
      simp only [List.mem_cons] at hs
      have : ¬c = ':' := fun h => hs (Or.inl h.symm)
      simp [this]
    simp only [List.cons_append, splitFirstColon, hc, Bool.false_eq_true, if_false]
    rw [show cs.append (':' :: t) = cs ++ ':' :: t from rfl,
      ih (fun h => hs (List.mem_cons_of_mem c h))]
    rfl

/-- The VERIFY reply under the startup fingerprint: VMATCH exactly for a
configured password and a matching fingerprint. -/
theorem verifyReply_eq (password f : Str) :
    verifyReply (mkPassHash password) f =
      if password ≠ [] ∧ f = passwordFingerprint password then "VMATCH".toList
      else "VNOMATCH".toList := by
  unfold verifyReply mkPassHash
  by_cases hp : password = []
  · subst hp
    simp
  · have hbeq : (password == []) = false := by simp [hp]
    rw [hbeq]
    simp only [Bool.not_false, if_true]
    have hfp : (passwordFingerprint password == []) = false := by
      simp [passwordFingerprint_ne_nil password]
    rw [hfp]
    simp only [Bool.not_false, Bool.true_and]
    by_cases hm : f = passwordFingerprint password
    · rw [hm, subtleCTC_self]
      simp [hp, hm]
    · have hne : subtleCTC (strBytes f) (strBytes (passwordFingerprint password)) ≠ 1 :=
        fun hc => hm (strBytes_inj ((subtleCTC_eq_one_iff _ _).mp hc))
      simp [hp, hm, hne]

/-- Hex digits below the table size are not whitespace. -/
theorem hexDigit_not_space_lt : ∀ n < 16, isSpaceChar (hexDigit n) = false := by decide

/-- No hex digit is whitespace. -/
theorem hexDigit_not_space (n : Nat) : isSpaceChar (hexDigit n) = false := by
  by_cases h : n < 16
  · exact hexDigit_not_space_lt n h
  · have hl : ("0123456789abcdef".toList).length = 16 := rfl
    rw [hexDigit, List.getD_eq_default _ _ (by rw [hl]; omega)]
    decide

/-- No character of a hex encoding is whitespace. -/
theorem hexEncode_not_space (l : List Nat) : ∀ c ∈ hexEncode l, isSpaceChar c = false := by
  intro c hc
  simp only [hexEncode, List.mem_flatMap, List.mem_cons, List.not_mem_nil, or_false] at hc
  obtain ⟨b, _, hc⟩ := hc
  rcases hc with rfl | rfl
  · exact hexDigit_not_space _
  · exact hexDigit_not_space _

/-- Trimming is the identity on whitespace-free strings. -/
theorem trimSpace_eq_self_of (l : Str) (h : ∀ c ∈ l, isSpaceChar c = false) :
    trimSpace l = l := by
  unfold trimSpace trimLeft trimRight
  rcases l with _ | ⟨a, t⟩
  · rfl
  · rw [List.dropWhile_cons_of_neg (by simp [h a (by simp)])]
    rcases hr : (a :: t).reverse with _ | ⟨b, s⟩
    · exact absurd hr (by simp)
    · have hb : b ∈ a :: t := by
        rw [← List.mem_reverse, hr]
        simp
      have hbs : List.dropWhile isSpaceChar (b :: s) = b :: s :=
        List.dropWhile_cons_of_neg (by simp [h b hb])
      rw [hbs, ← hr, List.reverse_reverse]

/-- C4 counterexample: the header VERIFY:␣<fp>␣ (the local fingerprint
with a leading blank) carries a received fingerprint different from the
local one, yet the responder replies VMATCH, because the remote
fingerprint is whitespace-trimmed before the comparison. -/
theorem claim4_verify_counterexample :
    handleConn "pw".toList (mkPassHash "pw".toList)
        ("VERIFY:".toList ++ (' ' :: (passwordFingerprint "pw".toList ++ ['\n']))) [] =
      ⟨["VMATCH".toList], [], []⟩ ∧
      (' ' :: passwordFingerprint "pw".toList) ≠ passwordFingerprint "pw".toList := by
  constructor
  · rw [handleConn_verify]
    have h1 : trimSpace (' ' :: (passwordFingerprint "pw".toList ++ ['\n'])) =
        passwordFingerprint "pw".toList := by
      show trimSpace ((' ' :: passwordFingerprint "pw".toList) ++ ['\n']) =
        passwordFingerprint "pw".toList
      rw [trimSpace_append_nl]
      show trimRight ((' ' :: passwordFingerprint "pw".toList).dropWhile isSpaceChar) =
        passwordFingerprint "pw".toList
      rw [List.dropWhile_cons_of_pos (by decide)]
      exact trimSpace_eq_self_of (passwordFingerprint "pw".toList) (hexEncode_not_space _)
    rw [h1, verifyReply_eq, if_pos ⟨by decide, rfl⟩]
  · intro h
    have hlen := congrArg List.length h
    simp only [List.length_cons] at hlen
    omega

/-- C4 amended: on every inbound header line with the VERIFY: prefix the
dispatcher replies exactly one line: VMATCH when a local password is
configured and the rest of the line, trimmed of surrounding whitespace
(including its newline), equals the local fingerprint under the
constant-time comparison, and VNOMATCH in every other case; with no
password configured the reply is VNOMATCH for every received line. -/
theorem claim4_verify_responder (password rest pl : Str) :
    handleConn password (mkPassHash password) ("VERIFY:".toList ++ rest) pl =
      ⟨[if password ≠ [] ∧ trimSpace rest = passwordFingerprint password
         then "VMATCH".toList else "VNOMATCH".toList], [], []⟩ ∧
    (password = [] →
      handleConn password (mkPassHash password) ("VERIFY:".toList ++ rest) pl =
        ⟨["VNOMATCH".toList], [], []⟩) := by
  rw [handleConn_verify, verifyReply_eq]
  refine ⟨rfl, fun hp => ?_⟩
  simp [hp]

/-- C8: an EFILE transfer received with no local password configured
writes no file (the ciphertext is discarded, never stored undecrypted),
acknowledges with ACCEPTED, and publishes the received-but-no-password
status event. -/
theorem claim8_efile_no_password (name payload ph : Str) (hn : trimSpace name = name) :
    handleConn [] ph ("EFILE:".toList ++ (name ++ ['\n'])) payload =
      ⟨["ACCEPTED".toList], [],
        [.status ("Encrypted file received but no password set: ".toList ++ name)]⟩ := by
  rw [handleConn_efile, trimSpace_append_nl, hn]
  rfl

/-- C8 witness: scenario D at the concrete file name. -/
theorem claim8_efile_no_password_witness :
    trimSpace "report.txt".toList = "report.txt".toList ∧
      handleConn [] [] ("EFILE:".toList ++ ("report.txt".toList ++ ['\n'])) "xyz".toList =
        ⟨["ACCEPTED".toList], [],
          [.status ("Encrypted file received but no password set: ".toList ++
            "report.txt".toList)]⟩ :=
  ⟨by decide, claim8_efile_no_password "report.txt".toList "xyz".toList [] (by decide)⟩

/-- C9 counterexample: the header line CHAT:alice:hi␣ (text carrying a
trailing blank before the newline) publishes the trimmed text, so the
text is not carried verbatim. -/
theorem claim9_chat_counterexample :
    (handleConn [] [] "CHAT:alice:hi \n".toList []).events =
      [.chat "alice".toList "hi".toList] ∧ "hi ".toList ≠ "hi".toList := by
  constructor
  · decide
  · decide

/-- C9 amended: on a header CHAT:<sender>:<text> with a colon-free
sender, the dispatcher publishes exactly one chat event with the sender
verbatim and the text trimmed of surrounding whitespace (in particular
the trailing newline), with no decryption applied; a text without
surrounding whitespace is therefore published verbatim. -/
theorem claim9_chat_event (pw ph sender text pl : Str) (hs : ':' ∉ sender) :
    handleConn pw ph ("CHAT:".toList ++ (sender ++ ':' :: (text ++ ['\n']))) pl =
      ⟨[], [], [.chat sender (trimSpace text)]⟩ := by
  rw [handleConn_chat]
  unfold chatEvents
  rw [splitFirstColon_append sender (text ++ ['\n']) hs]
  rw [show (match (some (sender, text ++ ['\n']) : Option (Str × Str)) with
      | some (s, t) => [NetEvent.chat s (trimSpace t)]
      | none => []) = [NetEvent.chat sender (trimSpace (text ++ ['\n']))] from rfl]
  rw [trimSpace_append_nl]

/-- C9 witness: scenario A, CHAT:alice:hello publishes sender alice and
text hello. -/
theorem claim9_chat_event_witness :
    (':' ∉ "alice".toList) ∧
      handleConn [] [] ("CHAT:".toList ++ ("alice".toList ++ ':' :: ("hello".toList ++ ['\n']))) [] =
        ⟨[], [], [.chat "alice".toList (trimSpace "hello".toList)]⟩ :=
  ⟨by decide, claim9_chat_event [] [] "alice".toList "hello".toList [] (by decide)⟩

/-- C5 counterexample: a response of ␣VMATCH (leading blank) is neither
the line VMATCH nor VMATCH with its newline, yet yields secure=true,
because the client trims whitespace before comparing. -/
theorem claim5_verify_counterexample :
    verifyPeerResult (.resp " VMATCH\n".toList) = true ∧
      " VMATCH\n".toList ≠ "VMATCH".toList ∧ " VMATCH\n".toList ≠ "VMATCH\n".toList := by
  decide

/-- C5 amended: every verification attempt delivers exactly one result;
dial failure and read failure yield secure=false, and a received response
yields secure=true exactly when its whitespace-trimmed content is VMATCH
(so VNOMATCH and any response not trimming to VMATCH yield false). -/
theorem claim5_verify_terminal (ip : Str) (io : VerifyIO) :
    (verifyPeerEvents ip io).length = 1 ∧
      verifyPeerResult .dialFail = false ∧ verifyPeerResult .readFail = false ∧
      (∀ line : Str, verifyPeerResult (.resp line) = true ↔
        trimSpace line = "VMATCH".toList) := by
  refine ⟨rfl, rfl, rfl, fun line => ?_⟩
  simp [verifyPeerResult]

/-! Lemmas about the discovery listener state. -/

/-- Lookup ignores an appended pair with a different key. -/
theorem lookupA_append_of_ne (l : List (Str × Str)) (k a v : Str) (h : (k == a) = false) :
    lookupA (l ++ [(k, v)]) a = lookupA l a := by
  induction l with
  | nil => simp [lookupA, h]
  | cons kv t ih =>
    obtain ⟨k2, v2⟩ := kv
    simp only [List.cons_append, lookupA]
    by_cases h2 : (k2 == a) = true
    · rw [if_pos h2, if_pos h2]
    · rw [if_neg h2, if_neg h2]
      exact ih

/-- Lookup finds a pair appended under an absent key. -/
theorem lookupA_append_self (l : List (Str × Str)) (k v : Str) (h : lookupA l k = none) :
    lookupA (l ++ [(k, v)]) k = some v := by
  induction l with
  | nil => simp [lookupA]
  | cons kv t ih =>
    obtain ⟨k2, v2⟩ := kv
    simp only [lookupA] at h
    by_cases h2 : (k2 == k) = true
    · rw [if_pos h2] at h
      exact absurd h (by simp)
    · rw [if_neg h2] at h
      simp only [List.cons_append, lookupA, if_neg h2]
      exact ih h

/-- Lookup misses exactly the keys not in the map. -/
theorem lookupA_eq_none (l : List (Str × Str)) (a : Str) :
    lookupA l a = none ↔ a ∉ l.map Prod.fst := by
  induction l with
  | nil => simp [lookupA]
  | cons kv t ih =>
    obtain ⟨k, v⟩ := kv
    simp only [lookupA, List.map_cons, List.mem_cons, not_or]
    by_cases h : (k == a) = true
    · have hk : k = a := by simpa using h
      rw [if_pos h]
      constructor
      · intro hsome
        exact absurd hsome (by simp)
      · rintro ⟨h1, _⟩
        exact absurd hk.symm h1
    · have hk : ¬k = a := by simpa using h
      rw [if_neg h, ih]
      constructor
      · intro h1
        exact ⟨fun he => hk he.symm, h1⟩
      · rintro ⟨_, h2⟩
        exact h2

/-- Invariant of the listener state: addresses are unique in the
discovered map, verification targets are unique, and every verification
target is a discovered address. -/
def DiscInv (st : DiscState) : Prop :=
  (st.discovered.map Prod.fst).Nodup ∧ st.verifies.Nodup ∧
    ∀ a ∈ st.verifies, a ∈ st.discovered.map Prod.fst

/-- One datagram preserves the listener invariant. -/
theorem udpStep_inv (mn ph : Str) (st : DiscState) (d : Datagram) (h : DiscInv st) :
    DiscInv (udpStep mn ph st d) := by
  obtain ⟨hd, hv, hsub⟩ := h
  unfold udpStep
  by_cases h1 : ("IAM:".toList.isPrefixOf d.payload) = true
  · rw [if_pos h1]
    by_cases h2 : (d.payload.drop 4 == mn) = true
    · rw [if_pos h2]
      exact ⟨hd, hv, hsub⟩
    · rw [if_neg h2]
      cases hl : lookupA st.discovered d.ip with
      | some w => exact ⟨hd, hv, hsub⟩
      | none =>
        have hnotin : d.ip ∉ st.discovered.map Prod.fst := (lookupA_eq_none _ _).mp hl
        have hnotver : d.ip ∉ st.verifies := fun hin => hnotin (hsub d.ip hin)
        refine ⟨?_, ?_, ?_⟩
        · simp only [List.map_append, List.map_cons, List.map_nil]
          rw [List.nodup_append]
          exact ⟨hd, List.nodup_singleton _, by simpa [List.disjoint_singleton] using hnotin⟩
        · by_cases hp : (!(ph == [])) = true
          · rw [if_pos hp, List.nodup_append]
            exact ⟨hv, List.nodup_singleton _, by simpa [List.disjoint_singleton] using hnotver⟩
          · rw [if_neg hp]
            simpa using hv
        · intro a ha
          simp only [List.map_append, List.map_cons, List.map_nil, List.mem_append,
            List.mem_cons]
          rcases List.mem_append.mp ha with h3 | h3
          · exact .inl (hsub a h3)
          · by_cases hp : (!(ph == [])) = true
            · rw [if_pos hp] at h3
              simp only [List.mem_cons, List.not_mem_nil, or_false] at h3
              exact .inr (by simp [h3])
            · rw [if_neg hp] at h3
              exact absurd h3 (List.not_mem_nil a)
  · rw [if_neg h1]
    exact ⟨hd, hv, hsub⟩

/-- The listener invariant holds after any datagram sequence. -/
theorem runUDP_inv (mn ph : Str) (ds : List Datagram) : DiscInv (runUDP mn ph ds) := by
  have aux : ∀ (l : List Datagram) (st : DiscState), DiscInv st →
      DiscInv (l.foldl (udpStep mn ph) st) := by
    intro l
    induction l with
    | nil => exact fun st h => h
    | cons d t ih => exact fun st h => ih _ (udpStep_inv mn ph st d h)
  exact aux ds discInit ⟨List.nodup_nil, List.nodup_nil, by simp [discInit]⟩

/-- Name carried by the first effective announcement for an address: the
first IAM datagram from that address whose name is not the local one. -/
def firstAnn (myName : Str) : List Datagram → Str → Option Str
  | [], _ => none
  | d :: t, a =>
    if "IAM:".toList.isPrefixOf d.payload then
      if d.payload.drop 4 == myName then firstAnn myName t a
      else if d.ip == a then some (d.payload.drop 4)
      else firstAnn myName t a
    else firstAnn myName t a

/-- A datagram from an already-known address leaves the listener state
unchanged. -/
theorem udpStep_known (mn ph : Str) (st : DiscState) (d : Datagram)
    (hl : (lookupA st.discovered d.ip).isSome = true) : udpStep mn ph st d = st := by
  obtain ⟨w, hw⟩ := Option.isSome_iff_exists.mp hl
  simp only [udpStep]
  by_cases h1 : ("IAM:".toList.isPrefixOf d.payload) = true
  · rw [if_pos h1]
    by_cases h2 : (d.payload.drop 4 == mn) = true
    · rw [if_pos h2]
    · rw [if_neg h2, hw]
  · rw [if_neg h1]

/-- A first-seen effective announcement inserts the record, publishes the
peer event, and spawns a verification exactly when a password is
configured. -/
theorem udpStep_new (mn ph : Str) (st : DiscState) (d : Datagram)
    (h1 : ("IAM:".toList.isPrefixOf d.payload) = true)
    (h2 : (d.payload.drop 4 == mn) = false)
    (hl : lookupA st.discovered d.ip = none) :
    udpStep mn ph st d =
      ⟨st.discovered ++ [(d.ip, d.payload.drop 4)],
        st.events ++ [.peerSeen (d.payload.drop 4) d.ip "Connected".toList],
        st.verifies ++ if !(ph == []) then [d.ip] else []⟩ := by
  simp only [udpStep]
  rw [if_pos h1, if_neg (by simp [h2]), hl]

/-- The discovered map after a datagram sequence holds, for every
address, the name of the first effective announcement, with entries
already present untouched. -/
theorem lookupA_foldl (mn ph : Str) :
    ∀ (ds : List Datagram) (st : DiscState) (a : Str),
      lookupA (ds.foldl (udpStep mn ph) st).discovered a =
        match lookupA st.discovered a with
        | some v => some v
        | none => firstAnn mn ds a
  | [], st, a => by
    cases h : lookupA st.discovered a <;> simp [firstAnn, h]
  | d :: t, st, a => by
    rw [List.foldl_cons, lookupA_foldl mn ph t (udpStep mn ph st d) a]
    simp only [firstAnn]
    by_cases h1 : ("IAM:".toList.isPrefixOf d.payload) = true
    · rw [if_pos h1]
      by_cases h2 : (d.payload.drop 4 == mn) = true
      · have hstep : udpStep mn ph st d = st := by
          simp only [udpStep]
          rw [if_pos h1, if_pos h2]
        rw [hstep, if_pos h2]
      · rw [if_neg h2]
        cases hl : lookupA st.discovered d.ip with
        | some w =>
          have hstep : udpStep mn ph st d = st :=
            udpStep_known mn ph st d (by rw [hl]; rfl)
          rw [hstep]
          by_cases hip : (d.ip == a) = true
          · have ha : d.ip = a := by simpa using hip
            subst ha
            rw [if_pos hip, hl]
          · rw [if_neg hip]
        | none =>
          have hstep := udpStep_new mn ph st d h1 (by simpa using h2) hl
          rw [hstep]
          by_cases hip : (d.ip == a) = true
          · have ha : d.ip = a := by simpa using hip
            subst ha
            rw [if_pos hip, lookupA_append_self st.discovered d.ip (d.payload.drop 4) hl, hl]
          · have hipf : (d.ip == a) = false := by simpa using hip
            rw [if_neg hip,
              lookupA_append_of_ne st.discovered d.ip a (d.payload.drop 4) hipf]
    · have hstep : udpStep mn ph st d = st := by
        simp only [udpStep]
        rw [if_neg h1]
      rw [hstep, if_neg h1]

/-- Without a configured password the listener never spawns a
verification. -/
theorem verifies_no_pass (mn : Str) :
    ∀ (ds : List Datagram) (st : DiscState),
      (ds.foldl (udpStep mn []) st).verifies = st.verifies
  | [], _ => rfl
  | d :: t, st => by
    rw [List.foldl_cons, verifies_no_pass mn t (udpStep mn [] st d)]
    simp only [udpStep]
    by_cases h1 : ("IAM:".toList.isPrefixOf d.payload) = true
    · rw [if_pos h1]
      by_cases h2 : (d.payload.drop 4 == mn) = true
      · rw [if_pos h2]
      · rw [if_neg h2]
        cases hl : lookupA st.discovered d.ip with
        | some w => rfl
        | none => simp
    · rw [if_neg h1]

/-- C6 counterexample: two announcements from one address with different
names leave the record carrying the first name, not the most recent
one. -/
theorem claim6_registry_counterexample :
    lookupA (runUDP "me".toList [] [⟨"10.0.0.1".toList, "IAM:n1".toList⟩,
        ⟨"10.0.0.1".toList, "IAM:n2".toList⟩]).discovered "10.0.0.1".toList =
      some "n1".toList ∧ "n1".toList ≠ "n2".toList := by
  constructor
  · decide
  · decide

/-- C6 amended: repeated announcements never produce more than one record
per address, and the record carries the name of the first effective
announcement from that address; later announcements with different names
are ignored and do not update it. -/
theorem claim6_registry_unique (mn ph : Str) (ds : List Datagram) (a : Str) :
    ((runUDP mn ph ds).discovered.map Prod.fst).Nodup ∧
      lookupA (runUDP mn ph ds).discovered a = firstAnn mn ds a := by
  refine ⟨(runUDP_inv mn ph ds).1, ?_⟩
  have h := lookupA_foldl mn ph ds discInit a
  rw [runUDP, h]
  rfl

/-- C7 counterexample: re-announcing a known address changes nothing at
all in the listener state (the code keeps no lastSeen timestamp and
performs no update), while the first announcement spawned the single
verification. -/
theorem claim7_reannounce_counterexample :
    runUDP "me".toList "h".toList [⟨"10.0.0.1".toList, "IAM:bob".toList⟩,
        ⟨"10.0.0.1".toList, "IAM:bob".toList⟩] =
      runUDP "me".toList "h".toList [⟨"10.0.0.1".toList, "IAM:bob".toList⟩] ∧
    (runUDP "me".toList "h".toList [⟨"10.0.0.1".toList, "IAM:bob".toList⟩]).verifies =
      ["10.0.0.1".toList] := by
  constructor
  · decide
  · decide

/-- C7 amended: a datagram from an already-known address leaves the whole
listener state unchanged (nothing is updated and no verification is
re-triggered); over any datagram sequence each address triggers at most
one verification, only for addresses actually discovered, and none at
all when no password is configured. -/
theorem claim7_verify_once (mn ph : Str) (ds : List Datagram) :
    (∀ (st : DiscState) (d : Datagram),
      (lookupA st.discovered d.ip).isSome = true → udpStep mn ph st d = st) ∧
    (runUDP mn ph ds).verifies.Nodup ∧
    (∀ a ∈ (runUDP mn ph ds).verifies, a ∈ (runUDP mn ph ds).discovered.map Prod.fst) ∧
    (ph = [] → (runUDP mn ph ds).verifies = []) := by
  refine ⟨fun st d h => udpStep_known mn ph st d h, (runUDP_inv mn ph ds).2.1,
    (runUDP_inv mn ph ds).2.2, fun hp => ?_⟩
  subst hp
  rw [runUDP, verifies_no_pass mn ds discInit]
  rfl

/-- C7 witness: the step identity applied to a concrete known address. -/
theorem claim7_verify_once_witness :
    ((lookupA (runUDP "me".toList "h".toList
        [⟨"10.0.0.1".toList, "IAM:bob".toList⟩]).discovered "10.0.0.1".toList).isSome = true) ∧
      udpStep "me".toList "h".toList
          (runUDP "me".toList "h".toList [⟨"10.0.0.1".toList, "IAM:bob".toList⟩])
          ⟨"10.0.0.1".toList, "IAM:carl".toList⟩ =
        runUDP "me".toList "h".toList [⟨"10.0.0.1".toList, "IAM:bob".toList⟩] :=
  ⟨by decide,
    (claim7_verify_once "me".toList "h".toList []).1
      (runUDP "me".toList "h".toList [⟨"10.0.0.1".toList, "IAM:bob".toList⟩])
      ⟨"10.0.0.1".toList, "IAM:carl".toList⟩ (by decide)⟩
